import Mathlib

/-!
Verification development for the gmcr-py conflict analysis engine
(data_02_conflictSolvers.py, with model data from data_01_conflictModel.py).

The embedding works over the data the solver code reads: the master option
list (one permitted direction per option, the option at master index k having
decimal value 2 ^ k), the feasible state list (strictly increasing decimal
values, index-aligned with the Y/N patterns and with the 1-based ordered
ranks), and the effective parties (decision makers or coalitions), each
carrying its per-state payoffs, its controlled option decimal values, and the
ordered ranks of the states it perceives.  Payoff vectors are taken as party
data because their derivation (data_03_gmcrUtilities) is outside the solver
module; the solver reads dm.payoffs as given.
-/

namespace GMCR

/-- permittedDirection of an Option: "both", "fwd", or "back". -/
inductive PermittedDirection : Type
  | both : PermittedDirection
  | fwd : PermittedDirection
  | back : PermittedDirection
deriving DecidableEq

/-- An effective party (DecisionMaker or Coalition) as the solver sees it:
isCoalition flag, scalar payoffs (DecisionMaker case), member payoff vectors
(Coalition case), dec_val of each controlled option, and the ordered ranks of
the perceived states (dm.perceived.ordered). -/
structure Party : Type where
  isCoalition : Bool
  payoffs : List Int
  memberPayoffs : List (List Int)
  options : List Nat
  perceivedOrdered : List Nat
deriving DecidableEq

/-- The conflict data consumed by RMGenerator: permitted direction per master
option index (dec_val of option k is 2 ^ k), the feasible states as their
strictly increasing decimal values, and the effective parties in order. -/
structure Conflict : Type where
  options : List PermittedDirection
  feasibles : List Nat
  parties : List Party
deriving DecidableEq

/-- Number of feasible states, len(conflict.feasibles). -/
def Nfeas (c : Conflict) : Nat := c.feasibles.length

/-- Party at an index of conflict.effectiveDMs (out of range yields a dummy). -/
def getParty (c : Conflict) (i : Nat) : Party :=
  c.parties.getD i ⟨false, [], [], [], []⟩

/-- Bit k of a decimal state value: the Y/N pattern of a state has a Y at
master index k exactly when bit k of its decimal value is set. -/
def bitY (d k : Nat) : Bool := d / 2 ^ k % 2 = 1

/-- Payoff comparison matrix entry [i, j] built in RMGenerator.init.
For a coalition, numpy computes the stacked member payoff differences and
takes (pmTemp greater 0).all(axis=2); the boolean entry is encoded as the
integer 1 or 0, matching how numpy bools behave in the solver arithmetic.
For a decision maker the entry is payoffs[j] - payoffs[i]. -/
def payoffMatrix (p : Party) (i j : Nat) : Int :=
  if p.isCoalition then
    if (List.range p.memberPayoffs.length).all
        (fun m => decide (0 < (p.memberPayoffs.getD m []).getD j 0
                              - (p.memberPayoffs.getD m []).getD i 0))
    then 1 else 0
  else p.payoffs.getD j 0 - p.payoffs.getD i 0

/-- Iterative subset-sum expansion used for fixedStates and
manipulatedStates: states = [y + z for y in states for z in [0, val]]. -/
def subsetSums (vals : List Nat) : List Nat :=
  vals.foldl (fun states val => states.flatMap (fun y => [y, y + val])) [0]

/-- Flat list of option dec_vals controlled by the effective DMs other than
the focal one (otherCOsMoves). -/
def otherMoves (c : Conflict) (dmIdx : Nat) : List Nat :=
  ((List.range c.parties.length).filter (fun o => o != dmIdx)).flatMap
    (fun o => (getParty c o).options)

/-- Mutual reachability step of RMGenerator.init: for each fixed base state
controlled by the other DMs, the candidate set is the base plus every focal
move combination, filtered to feasible decimals; every ordered pair of
distinct states inside one candidate set is marked reachable. -/
def mutualReach (c : Conflict) (dmIdx i j : Nat) : Bool :=
  match c.feasibles.get? i, c.feasibles.get? j with
  | some di, some dj =>
      (i != j) &&
      (subsetSums (otherMoves c dmIdx)).any (fun b =>
        let cand := ((subsetSums (getParty c dmIdx).options).map
            (fun z => b + z)).filter (fun y => c.feasibles.contains y)
        cand.contains di && cand.contains dj)
  | _, _ => false

/-- Irreversibility removal of RMGenerator.init: entry (i, j) is zeroed when
some option with permittedDirection other than both has, at state i, the
value from which a move is irreversible (Y for fwd, N for back) and state j
differs in that option. -/
def irrevCut (c : Conflict) (i j : Nat) : Bool :=
  (List.range c.options.length).any (fun k =>
    let dir := c.options.getD k PermittedDirection.both
    let v0 := bitY (c.feasibles.getD i 0) k
    let v1 := bitY (c.feasibles.getD j 0) k
    (dir != PermittedDirection.both) &&
      ((v0 && dir == PermittedDirection.fwd) ||
       (!v0 && dir == PermittedDirection.back)) &&
      (v0 != v1))

/-- Misperception removal of RMGenerator.init: rows and columns of states
whose 1-based ordered rank is not perceived by the party are zeroed; an
entry survives only when both endpoints are perceived. -/
def perceivedKeep (c : Conflict) (dmIdx i j : Nat) : Bool :=
  (getParty c dmIdx).perceivedOrdered.contains (i + 1) &&
    (getParty c dmIdx).perceivedOrdered.contains (j + 1)

/-- Final reachability matrix entry for a party: the mutual-reach entries,
minus the irreversible transitions, minus the misperceived rows/columns. -/
def reachabilityEntry (c : Conflict) (dmIdx i j : Nat) : Bool :=
  mutualReach c dmIdx i j && !irrevCut c i j && perceivedKeep c dmIdx i j

/-- RMGenerator.reachable: indices of the nonzero entries of row stateIdx of
the reachability matrix. -/
def reachableList (c : Conflict) (dmIdx s : Nat) : List Nat :=
  (List.range (Nfeas c)).filter (fun j => reachabilityEntry c dmIdx s j)

/-- RMGenerator.UIs: nonzero entries of reachability[s, :] * payoffMatrix[r, :]
greater than zero; since reachability entries are 0 or 1, an index qualifies
exactly when it is reachable from s and the payoff entry at [r, j] is
positive.  refState defaults to stateIdx. -/
def UIsList (c : Conflict) (dmIdx s : Nat) (refState : Option Nat) : List Nat :=
  let r := refState.getD s
  (List.range (Nfeas c)).filter (fun j =>
    reachabilityEntry c dmIdx s j &&
      decide (0 < payoffMatrix (getParty c dmIdx) r j))

/-- LogicalSolver.nash boolean result: stable iff the UI list is empty. -/
def nashB (c : Conflict) (dmIdx s : Nat) : Bool :=
  (UIsList c dmIdx s none).isEmpty

/-- LogicalSolver.checkCountermoves: the focal DM has a UI from state2 that it
prefers to state0. -/
def checkCountermoves (c : Conflict) (dmIdx s0 s2 : Nat) : Bool :=
  (UIsList c dmIdx s2 none).any
    (fun s3 => decide (0 < payoffMatrix (getParty c dmIdx) s0 s3))

/-- LogicalSolver.checkSanctions, with explicit fuel standing in for the
recursion over shrinking opponent lists (each recursive call removes the
moving opponent, so fuel equal to the list length is never exhausted).
A move to s1 is sanctioned when some opponent has a move (a UI when uiOnly)
to a state s2 that either directly leaves the focal party no better than s0
(and, when countermoves are enabled, cannot be countermoved) or from which
the remaining opponents can sanction in turn. -/
def checkSanctionsF (c : Conflict) (focal s0 : Nat) (uiOnly cm : Bool) :
    Nat → List Nat → Nat → Bool
  | 0, _, _ => false
  | fuel + 1, others, s1 =>
      others.any (fun dmIdx =>
        let moves := if uiOnly then UIsList c dmIdx s1 none
                     else reachableList c dmIdx s1
        moves.any (fun s2 =>
          (decide (payoffMatrix (getParty c focal) s0 s2 ≤ 0) &&
             !(cm && checkCountermoves c focal s0 s2)) ||
          checkSanctionsF c focal s0 uiOnly cm fuel (others.erase dmIdx) s2))

/-- LogicalSolver.checkSanctions boolean result. -/
def checkSanctions (c : Conflict) (focal : Nat) (others : List Nat)
    (s0 s1 : Nat) (uiOnly cm : Bool) : Bool :=
  checkSanctionsF c focal s0 uiOnly cm others.length others s1

/-- Relational characterization of the recursive sanction search: starting
from s1, a nonempty sequence of moves by pairwise distinct opponents (each
a move available to the mover from the state left by the previous one, a UI
when uiOnly) ends in a state that leaves the focal party no better off than
at s0 and, when countermoves are enabled, is not countermovable at the final
step. -/
inductive SanctionSeq (c : Conflict) (focal s0 : Nat) (uiOnly cm : Bool) :
    List Nat → Nat → Prop
  | direct {others : List Nat} {s1 dmIdx s2 : Nat} :
      dmIdx ∈ others →
      s2 ∈ (if uiOnly then UIsList c dmIdx s1 none
            else reachableList c dmIdx s1) →
      payoffMatrix (getParty c focal) s0 s2 ≤ 0 →
      (cm && checkCountermoves c focal s0 s2) = false →
      SanctionSeq c focal s0 uiOnly cm others s1
  | chain {others : List Nat} {s1 dmIdx s2 : Nat} :
      dmIdx ∈ others →
      s2 ∈ (if uiOnly then UIsList c dmIdx s1 none
            else reachableList c dmIdx s1) →
      SanctionSeq c focal s0 uiOnly cm (others.erase dmIdx) s2 →
      SanctionSeq c focal s0 uiOnly cm others s1

/-- Opponent indices: every effective DM that is not the focal one. -/
def othersOf (c : Conflict) (dmIdx : Nat) : List Nat :=
  (List.range c.parties.length).filter (fun o => o != dmIdx)

/-- LogicalSolver.seq boolean result: every UI must be sanctioned by opponent
UIs (trivially stable when there is no UI). -/
def seqB (c : Conflict) (dmIdx s0 : Nat) : Bool :=
  (UIsList c dmIdx s0 none).all (fun s1 =>
    checkSanctions c dmIdx (othersOf c dmIdx) s0 s1 true false)

/-- LogicalSolver.gmr boolean result: sanction moves may be any reachable
opponent move. -/
def gmrB (c : Conflict) (dmIdx s0 : Nat) : Bool :=
  (UIsList c dmIdx s0 none).all (fun s1 =>
    checkSanctions c dmIdx (othersOf c dmIdx) s0 s1 false false)

/-- LogicalSolver.smr boolean result: like GMR but with countermoves. -/
def smrB (c : Conflict) (dmIdx s0 : Nat) : Bool :=
  (UIsList c dmIdx s0 none).all (fun s1 =>
    checkSanctions c dmIdx (othersOf c dmIdx) s0 s1 false true)

/-- Cartesian product of a list of lists in the order of itertools.product:
the leftmost factor varies slowest. -/
def cartProduct {α : Type} : List (List α) → List (List α)
  | [] => [[]]
  | xs :: rest => xs.flatMap (fun x => (cartProduct rest).map (fun t => x :: t))

/-- The per-opponent move value lists built inside LogicalSolver.sim:
for every other DM, 0 (no move) plus the decimal deltas of its UIs from s0. -/
def otherUIdeltas (c : Conflict) (dmIdx s0 : Nat) : List (List Int) :=
  (othersOf c dmIdx).map (fun o =>
    (0 : Int) :: (UIsList c o s0 none).map
      (fun s2 => ((c.feasibles.getD s2 0 : Int) - (c.feasibles.getD s0 0 : Int))))

/-- One scan of the (single, shared) moveset iterator inside
LogicalSolver.sim: consume movesets until one yields a feasible combined
state no better than s0 for the focal party; return the unconsumed remainder,
or none when the iterator is exhausted without finding a sanction.
Infeasible combinations are consumed and disregarded. -/
def simScan (c : Conflict) (focal s0 : Nat) :
    List (List Int) → Nat → Option (List (List Int))
  | [], _ => none
  | m :: rest, s1 =>
      let s2dec : Int := (c.feasibles.getD s1 0 : Int) + m.foldl (· + ·) 0
      if c.feasibles.any (fun d => (d : Int) == s2dec) then
        let s2 := c.feasibles.findIdx (fun d => (d : Int) == s2dec)
        if payoffMatrix (getParty c focal) s0 s2 ≤ 0 then some rest
        else simScan c focal s0 rest s1
      else simScan c focal s0 rest s1

/-- The loop over focal UIs in LogicalSolver.sim.  The moveset list threads
through: itertools.product produces one generator that is consumed across
all UI iterations, so each UI only sees the movesets left over after the
previous UI found its sanction. -/
def simLoop (c : Conflict) (focal s0 : Nat) :
    List Nat → List (List Int) → Bool
  | [], _ => true
  | s1 :: rest, movesets =>
      match simScan c focal s0 movesets s1 with
      | some remaining => simLoop c focal s0 rest remaining
      | none => false

/-- LogicalSolver.sim boolean result. -/
def simB (c : Conflict) (dmIdx s0 : Nat) : Bool :=
  let ui := UIsList c dmIdx s0 none
  if ui.isEmpty then true
  else simLoop c dmIdx s0 ui (cartProduct (otherUIdeltas c dmIdx s0))

/-- Modelled from the spec: SIM stability as the specification states it,
with the combination search restarted for every focal UI (each UI is checked
against the full Cartesian product of opponent move choices). -/
def simSpec (c : Conflict) (dmIdx s0 : Nat) : Bool :=
  (UIsList c dmIdx s0 none).all (fun s1 =>
    (cartProduct (otherUIdeltas c dmIdx s0)).any (fun m =>
      let s2dec : Int := (c.feasibles.getD s1 0 : Int) + m.foldl (· + ·) 0
      c.feasibles.any (fun d => (d : Int) == s2dec) &&
        decide (payoffMatrix (getParty c dmIdx) s0
          (c.feasibles.findIdx (fun d => (d : Int) == s2dec)) ≤ 0)))

/-- InverseSolver.decPerm: all versions of the list full in which only the
span full[vary[0]:vary[1]] is permuted (a Python slice of natural bounds is
drop then take).  An empty vary yields the list unchanged; itertools yields
the permutations of the slice, here List.permutations' (same elements, order
of enumeration aside). -/
def decPerm {α : Type} (full : List α) (vary : List Nat) : List (List α) :=
  if vary.isEmpty then [full]
  else
    let a := vary.getD 0 0
    let b := vary.getD 1 0
    (((full.drop a).take (b - a)).permutations').map
      (fun x => full.take a ++ x ++ full.drop b)

/-- InverseSolver.prefPermGen: the Cartesian product of the per-DM permuted
rankings. -/
def prefPermGen {α : Type} (prefRanks : List (List α))
    (vary : List (List Nat)) : List (List (List α)) :=
  cartProduct ((prefRanks.zip vary).map (fun t => decPerm t.1 t.2))

/-- Minimal JSON value tree for modelling the node objects that
RMGenerator.saveJSON writes. -/
inductive JVal : Type
  | str : String → JVal
  | num : Int → JVal
  | arr : List JVal → JVal
  | obj : List (String × JVal) → JVal

/-- Field names of a JSON object, in writing order. -/
def objFields : JVal → List String
  | JVal.obj fs => fs.map (fun f => f.1)
  | _ => []

/-- Y/N pattern string of a feasible state as stored in feasibles.yn:
position k holds Y exactly when bit k of the decimal value is set. -/
def ynString (d numOptions : Nat) : String :=
  String.mk ((List.range numOptions).map (fun k => if bitY d k then 'Y' else 'N'))

/-- The reachable entries collected for one node by RMGenerator.saveJSON:
for every effective DM in order and every state it can reach, an object with
fields target, dm (the string dm followed by the party index), and
payoffChange. -/
def reachEntriesFor (c : Conflict) (stateIdx : Nat) : List JVal :=
  (List.range c.parties.length).flatMap (fun coInd =>
    (reachableList c coInd stateIdx).map (fun rchSt =>
      JVal.obj [("target", JVal.num (Int.ofNat rchSt)),
                ("dm", JVal.str ("dm" ++ toString coInd)),
                ("payoffChange",
                  JVal.num (payoffMatrix (getParty c coInd) stateIdx rchSt))]))

/-- The node list written by RMGenerator.saveJSON: one object per feasible
state with fields id, decimal, ordered, state, and reachable (the ordered
rank of the state at index i is i + 1). -/
def saveJSONNodes (c : Conflict) : List JVal :=
  (List.range (Nfeas c)).map (fun stateIdx =>
    JVal.obj [("id", JVal.num (Int.ofNat stateIdx)),
              ("decimal", JVal.str (toString (c.feasibles.getD stateIdx 0))),
              ("ordered", JVal.str (toString (stateIdx + 1))),
              ("state", JVal.str (ynString (c.feasibles.getD stateIdx 0)
                                    c.options.length)),
              ("reachable", JVal.arr (reachEntriesFor c stateIdx))])

/-- Full reachability matrix of one party as built by RMGenerator.init. -/
def reachMatrix (c : Conflict) (dmIdx : Nat) : List (List Bool) :=
  (List.range (Nfeas c)).map (fun i =>
    (List.range (Nfeas c)).map (fun j => reachabilityEntry c dmIdx i j))

/-- Full payoff comparison matrix of one party. -/
def payoffMatrixFull (c : Conflict) (dmIdx : Nat) : List (List Int) :=
  (List.range (Nfeas c)).map (fun i =>
    (List.range (Nfeas c)).map (fun j => payoffMatrix (getParty c dmIdx) i j))

/-- RMGenerator.init as a fallible constructor.  The Python initializer body
contains no feasibility check and no raise statement of its own: it builds
the matrices for every effective DM and returns, whatever the size of the
feasible state list, so the embedding always returns ok. -/
def rmGeneratorInit (c : Conflict) :
    Except String (List (List (List Bool) × List (List Int))) :=
  Except.ok ((List.range c.parties.length).map
    (fun d => (reachMatrix c d, payoffMatrixFull c d)))

/-- Equilibrium aggregation of findEquilibria: a state is an equilibrium
under a concept when it is stable under that concept for every effective
party. -/
def nashEqB (c : Conflict) (s : Nat) : Bool :=
  (List.range c.parties.length).all (fun i => nashB c i s)

/-- SEQ equilibria of findEquilibria. -/
def seqEqB (c : Conflict) (s : Nat) : Bool :=
  (List.range c.parties.length).all (fun i => seqB c i s)

/-- GMR equilibria of findEquilibria. -/
def gmrEqB (c : Conflict) (s : Nat) : Bool :=
  (List.range c.parties.length).all (fun i => gmrB c i s)

/-- SMR equilibria of findEquilibria. -/
def smrEqB (c : Conflict) (s : Nat) : Bool :=
  (List.range c.parties.length).all (fun i => smrB c i s)

/-- Three decision makers with one binary option each (decimal values 1, 2
and 4), all eight states feasible, all options reversible, everything
perceived.  Payoffs chosen so that the only UI of the first DM from state 0
is sanctioned by a two-opponent chain but by no single opponent UI. -/
def cex2 : Conflict :=
  ⟨[PermittedDirection.both, PermittedDirection.both, PermittedDirection.both],
   [0, 1, 2, 3, 4, 5, 6, 7],
   [⟨false, [5, 6, 0, 7, 0, 9, 0, 2], [], [1], [1, 2, 3, 4, 5, 6, 7, 8]⟩,
    ⟨false, [0, 0, 0, 1, 0, 0, 0, 0], [], [2], [1, 2, 3, 4, 5, 6, 7, 8]⟩,
    ⟨false, [0, 1, 0, 0, 0, 0, 0, 2], [], [4], [1, 2, 3, 4, 5, 6, 7, 8]⟩]⟩

/-- Two decision makers, the first controlling two options (decimal values 1
and 2), the second one option (4); all eight states feasible.  The first DM
has two UIs from state 0 and each has a feasible simultaneous sanction. -/
def cex3 : Conflict :=
  ⟨[PermittedDirection.both, PermittedDirection.both, PermittedDirection.both],
   [0, 1, 2, 3, 4, 5, 6, 7],
   [⟨false, [5, 6, 7, 0, 0, 1, 2, 0], [], [1, 2], [1, 2, 3, 4, 5, 6, 7, 8]⟩,
    ⟨false, [0, 0, 0, 0, 1, 0, 0, 0], [], [4], [1, 2, 3, 4, 5, 6, 7, 8]⟩]⟩

/-- Two decision makers with one option each, four feasible states.  State 0
is SMR stable for both parties (the second DM sanctions with a non-improving
move) but not SEQ stable for the first. -/
def cex4 : Conflict :=
  ⟨[PermittedDirection.both, PermittedDirection.both],
   [0, 1, 2, 3],
   [⟨false, [5, 6, 0, 3], [], [1], [1, 2, 3, 4]⟩,
    ⟨false, [9, 1, 0, 0], [], [2], [1, 2, 3, 4]⟩]⟩

/-- A conflict whose feasible state list is empty. -/
def cEmpty : Conflict := ⟨[], [], [⟨false, [], [], [], []⟩]⟩

/-- One decision maker, one reversible option, both states feasible. -/
def cJ : Conflict :=
  ⟨[PermittedDirection.both], [0, 1],
   [⟨false, [0, 1], [], [1], [1, 2]⟩]⟩

/-- One decision maker, one forward-only option, both states feasible. -/
def cIrr : Conflict :=
  ⟨[PermittedDirection.fwd], [0, 1],
   [⟨false, [0, 1], [], [1], [1, 2]⟩]⟩

/-- A coalition of two members over two states, next to a plain decision
maker, used as witness data for the payoff comparison claim. -/
def cCo : Conflict :=
  ⟨[PermittedDirection.both], [0, 1],
   [⟨true, [], [[0, 1], [0, 2]], [1], [1, 2]⟩,
    ⟨false, [4, 1], [], [], [1, 2]⟩]⟩

theorem any_ext {α : Type} {f g : α → Bool} :
    ∀ {l : List α}, (∀ x ∈ l, f x = g x) → l.any f = l.any g := by
  intro l h
  induction l with
  | nil => rfl
  | cons a t ih =>
      simp only [List.any_cons]
      rw [h a (List.mem_cons_self a t),
        ih (fun x hx => h x (List.mem_cons_of_mem a hx))]

theorem length_erase_lt {a : Nat} {l : List Nat} (h : a ∈ l) :
    (l.erase a).length < l.length := by
  have h1 := List.length_erase_add_one h
  omega

theorem length_erase_le_of_mem {a : Nat} {l : List Nat} (h : a ∈ l)
    {n : Nat} (hn : l.length ≤ n + 1) : (l.erase a).length ≤ n := by
  have h1 := List.length_erase_add_one h
  omega

theorem checkSanctionsF_congr (c : Conflict) (focal s0 : Nat) (u m : Bool) :
    ∀ fuel fuel' others s1, others.length ≤ fuel → others.length ≤ fuel' →
      checkSanctionsF c focal s0 u m fuel others s1 =
        checkSanctionsF c focal s0 u m fuel' others s1 := by
  intro fuel
  induction fuel with
  | zero =>
      intro fuel' others s1 h h'
      have hnil : others = [] := List.eq_nil_of_length_eq_zero (Nat.le_zero.mp h)
      subst hnil
      cases fuel' <;> simp [checkSanctionsF]
  | succ fuel ih =>
      intro fuel' others s1 h h'
      cases fuel' with
      | zero =>
          have hnil : others = [] :=
            List.eq_nil_of_length_eq_zero (Nat.le_zero.mp h')
          subst hnil
          simp [checkSanctionsF]
      | succ fuel' =>
          simp only [checkSanctionsF]
          refine any_ext (fun dmIdx hdm => ?_)
          refine any_ext (fun s2 _ => ?_)
          rw [ih fuel' (others.erase dmIdx) s2
            (length_erase_le_of_mem hdm h) (length_erase_le_of_mem hdm h')]

theorem checkSanctions_eq (c : Conflict) (focal s0 : Nat) (u m : Bool)
    (others : List Nat) (s1 : Nat) :
    checkSanctions c focal others s0 s1 u m =
      others.any (fun dmIdx =>
        ((if u then UIsList c dmIdx s1 none
          else reachableList c dmIdx s1).any (fun s2 =>
          (decide (payoffMatrix (getParty c focal) s0 s2 ≤ 0) &&
             !(m && checkCountermoves c focal s0 s2)) ||
          checkSanctions c focal (others.erase dmIdx) s0 s2 u m))) := by
  cases others with
  | nil => simp [checkSanctions, checkSanctionsF]
  | cons a t =>
      show checkSanctionsF c focal s0 u m (t.length + 1) (a :: t) s1 = _
      simp only [checkSanctionsF]
      refine any_ext (fun dmIdx hdm => ?_)
      refine any_ext (fun s2 _ => ?_)
      have : checkSanctionsF c focal s0 u m t.length ((a :: t).erase dmIdx) s2 =
          checkSanctions c focal ((a :: t).erase dmIdx) s0 s2 u m := by
        refine checkSanctionsF_congr c focal s0 u m _ _ _ _
          (length_erase_le_of_mem hdm (Nat.le_refl _)) (Nat.le_refl _)
      rw [this]

theorem sanctionSeq_of_checkSanctions (c : Conflict) (focal s0 : Nat)
    (u m : Bool) :
    ∀ n others s1, others.length = n →
      checkSanctions c focal others s0 s1 u m = true →
      SanctionSeq c focal s0 u m others s1 := by
  intro n
  induction n using Nat.strong_induction_on with
  | _ n ih =>
      intro others s1 hlen h
      rw [checkSanctions_eq] at h
      obtain ⟨dmIdx, hdm, h2⟩ := List.any_eq_true.mp h
      obtain ⟨s2, hs2, h3⟩ := List.any_eq_true.mp h2
      rcases Bool.or_eq_true _ _ |>.mp h3 with hd | hc
      · obtain ⟨hd1, hd2⟩ := Bool.and_eq_true _ _ |>.mp hd
        exact SanctionSeq.direct hdm hs2 (of_decide_eq_true hd1)
          (Bool.not_eq_true' _ |>.mp hd2)
      · subst hlen
        exact SanctionSeq.chain hdm hs2
          (ih _ (length_erase_lt hdm) _ _ rfl hc)

theorem checkSanctions_of_sanctionSeq (c : Conflict) (focal s0 : Nat)
    (u m : Bool) {others : List Nat} {s1 : Nat}
    (h : SanctionSeq c focal s0 u m others s1) :
    checkSanctions c focal others s0 s1 u m = true := by
  induction h with
  | direct hdm hs2 hpay hcm =>
      rw [checkSanctions_eq]
      refine List.any_eq_true.mpr ⟨_, hdm, List.any_eq_true.mpr ⟨_, hs2, ?_⟩⟩
      refine Bool.or_eq_true _ _ |>.mpr (Or.inl ?_)
      refine Bool.and_eq_true _ _ |>.mpr ⟨decide_eq_true hpay, ?_⟩
      rw [hcm]
      rfl
  | chain hdm hs2 _ ihs =>
      rw [checkSanctions_eq]
      refine List.any_eq_true.mpr ⟨_, hdm, List.any_eq_true.mpr ⟨_, hs2, ?_⟩⟩
      exact Bool.or_eq_true _ _ |>.mpr (Or.inr ihs)

theorem checkSanctions_iff_sanctionSeq (c : Conflict) (focal s0 : Nat)
    (u m : Bool) (others : List Nat) (s1 : Nat) :
    checkSanctions c focal others s0 s1 u m = true ↔
      SanctionSeq c focal s0 u m others s1 :=
  ⟨sanctionSeq_of_checkSanctions c focal s0 u m _ others s1 rfl,
   checkSanctions_of_sanctionSeq c focal s0 u m⟩

theorem sanctionSeq_cm_mono {c : Conflict} {focal s0 : Nat} {u : Bool}
    {others : List Nat} {s1 : Nat}
    (h : SanctionSeq c focal s0 u true others s1) :
    SanctionSeq c focal s0 u false others s1 := by
  induction h with
  | direct hdm hs2 hpay _ =>
      exact SanctionSeq.direct hdm hs2 hpay (Bool.false_and _)
  | chain hdm hs2 _ ihs => exact SanctionSeq.chain hdm hs2 ihs


theorem payoffMatrix_dm {p : Party} (h : p.isCoalition = false) (i j : Nat) :
    payoffMatrix p i j = p.payoffs.getD j 0 - p.payoffs.getD i 0 := by
  unfold payoffMatrix
  rw [h]
  simp

theorem nashB_iff (c : Conflict) (dmIdx s : Nat) :
    nashB c dmIdx s = true ↔
      ∀ j, j < Nfeas c → reachabilityEntry c dmIdx s j = true →
        ¬ 0 < payoffMatrix (getParty c dmIdx) s j := by
  unfold nashB UIsList
  simp only [Option.getD_none, List.isEmpty_iff, List.filter_eq_nil_iff,
    List.mem_range, Bool.and_eq_true, decide_eq_true_eq, not_and]

theorem smrB_imp_gmrB (c : Conflict) (dmIdx s : Nat)
    (h : smrB c dmIdx s = true) : gmrB c dmIdx s = true := by
  unfold smrB at h
  unfold gmrB
  rw [List.all_eq_true] at h ⊢
  intro s1 h1
  have h2 := h s1 h1
  rw [checkSanctions_iff_sanctionSeq] at h2 ⊢
  exact sanctionSeq_cm_mono h2

theorem nashB_imp_seqB (c : Conflict) (dmIdx s : Nat)
    (h : nashB c dmIdx s = true) : seqB c dmIdx s = true := by
  unfold nashB at h
  rw [List.isEmpty_iff] at h
  unfold seqB
  rw [h]
  rfl

theorem nashB_imp_gmrB (c : Conflict) (dmIdx s : Nat)
    (h : nashB c dmIdx s = true) : gmrB c dmIdx s = true := by
  unfold nashB at h
  rw [List.isEmpty_iff] at h
  unfold gmrB
  rw [h]
  rfl

/-- C1: LogicalSolver.nash returns true exactly when the party has no
reachable state from s whose payoff comparison against s is strictly
positive; for a plain decision maker this says no reachable state has payoff
strictly greater than the payoff at s, so payoff equality counts as no
improvement. -/
theorem nash_iff_no_improvement (c : Conflict) (dmIdx s : Nat)
    (hs : s < Nfeas c) :
    (nashB c dmIdx s = true ↔
      ∀ j, j < Nfeas c → reachabilityEntry c dmIdx s j = true →
        ¬ 0 < payoffMatrix (getParty c dmIdx) s j) ∧
    ((getParty c dmIdx).isCoalition = false →
      (nashB c dmIdx s = true ↔
        ∀ j, j < Nfeas c → reachabilityEntry c dmIdx s j = true →
          ¬ (getParty c dmIdx).payoffs.getD s 0 <
              (getParty c dmIdx).payoffs.getD j 0)) := by
  refine ⟨nashB_iff c dmIdx s, fun hco => ?_⟩
  rw [nashB_iff c dmIdx s]
  refine forall_congr' (fun j => forall_congr' (fun hj =>
    forall_congr' (fun hr => not_congr ?_)))
  rw [payoffMatrix_dm hco]
  exact sub_pos

/-- Witness for C1: in cex4 the second decision maker is Nash stable at
state 0, hence state 2, reachable for it, is not strictly preferred. -/
theorem nash_iff_no_improvement_witness :
    ¬ (getParty cex4 1).payoffs.getD 0 0 < (getParty cex4 1).payoffs.getD 2 0 :=
  ((nash_iff_no_improvement cex4 1 0 (by decide)).2 (by decide)).mp
    (by decide) 2 (by decide) (by decide)

/-- C2, counterexample: in cex2 the first decision maker is SEQ stable at
state 0 by the code, yet its UI to state 1 is sanctioned by no single
opponent UI (only a two-opponent chain sanctions it), so the claimed
equivalence with one-step sanctioning fails. -/
theorem seq_single_step_cex :
    seqB cex2 0 0 = true ∧
    ¬ ((UIsList cex2 0 0 none).isEmpty = true ∨
       ∀ s1 ∈ UIsList cex2 0 0 none, ∃ o ∈ othersOf cex2 0,
         ∃ s2 ∈ UIsList cex2 o s1 none,
           payoffMatrix (getParty cex2 0) 0 s2 ≤ 0) := by
  decide

/-- C2 as amended: seq is true exactly when every UI of the focal party from
s0 is sanctioned by a sequence of UIs of pairwise distinct other parties,
each moving from the state the previous mover produced, ending in a state
that leaves the focal party no better off than at s0 (the one-move case is
the single-step sanction of the original claim). -/
theorem seq_iff_sanction_chain (c : Conflict) (dmIdx s0 : Nat)
    (hs : s0 < Nfeas c) :
    seqB c dmIdx s0 = true ↔
      ∀ s1 ∈ UIsList c dmIdx s0 none,
        SanctionSeq c dmIdx s0 true false (othersOf c dmIdx) s1 := by
  unfold seqB
  rw [List.all_eq_true]
  exact forall_congr' (fun s1 => forall_congr' (fun h1 =>
    checkSanctions_iff_sanctionSeq c dmIdx s0 true false (othersOf c dmIdx) s1))

/-- Witness for C2: the sanction chain guaranteed by the amended theorem at
the concrete conflict cex2. -/
theorem seq_iff_sanction_chain_witness :
    SanctionSeq cex2 0 0 true false (othersOf cex2 0) 1 :=
  (seq_iff_sanction_chain cex2 0 0 (by decide)).mp (by decide) 1 (by decide)

/-- C3: the claim is what the code intends, but the single itertools.product
iterator is consumed across the loop over focal UIs, so in cex3 the second
UI of the first party finds no moveset left and sim returns false even
though every UI has a feasible simultaneous sanction (simSpec, the
specification reading with the combination search restarted per UI, is true
there). -/
theorem sim_generator_exhaustion :
    simB cex3 0 0 = false ∧ simSpec cex3 0 0 = true := by
  decide

/-- C4, counterexample: in cex4 state 0 is an SMR equilibrium but not a SEQ
equilibrium, so SMR equilibria are not contained in SEQ equilibria. -/
theorem smr_not_subset_seq_cex :
    smrEqB cex4 0 = true ∧ seqEqB cex4 0 = false := by
  decide

/-- C4 as amended: every SMR equilibrium is a GMR equilibrium, and every
Nash equilibrium is both a SEQ and a GMR equilibrium (the containment of SMR
equilibria in SEQ equilibria fails, see the counterexample). -/
theorem equilibria_containments (c : Conflict) (s : Nat) :
    (smrEqB c s = true → gmrEqB c s = true) ∧
    (nashEqB c s = true → seqEqB c s = true) ∧
    (nashEqB c s = true → gmrEqB c s = true) := by
  refine ⟨fun h => ?_, fun h => ?_, fun h => ?_⟩
  · unfold smrEqB at h
    unfold gmrEqB
    rw [List.all_eq_true] at h ⊢
    intro i hi
    exact smrB_imp_gmrB c i s (h i hi)
  · unfold nashEqB at h
    unfold seqEqB
    rw [List.all_eq_true] at h ⊢
    intro i hi
    exact nashB_imp_seqB c i s (h i hi)
  · unfold nashEqB at h
    unfold gmrEqB
    rw [List.all_eq_true] at h ⊢
    intro i hi
    exact nashB_imp_gmrB c i s (h i hi)

/-- Witness for C4: the amended containments applied at concrete conflicts
and states where the hypotheses hold. -/
theorem equilibria_containments_witness :
    gmrEqB cex4 0 = true ∧ seqEqB cJ 1 = true ∧ gmrEqB cJ 1 = true :=
  ⟨(equilibria_containments cex4 0).1 (by decide),
   (equilibria_containments cJ 1).2.1 (by decide),
   (equilibria_containments cJ 1).2.2 (by decide)⟩

/-- C5: for every option whose permitted direction is not both, every entry
of every party reachability matrix whose source state holds the value the
option cannot leave (taken for fwd, untaken for back) while the target state
differs in that option is zero after construction; the statement quantifies
over all party indices, so the removal applies identically to every party
matrix. -/
theorem irreversible_moves_zeroed (c : Conflict) (dmIdx i j k : Nat)
    (hi : i < Nfeas c) (hj : j < Nfeas c) (hk : k < c.options.length)
    (hdir : (c.options.getD k PermittedDirection.both = PermittedDirection.fwd ∧
             bitY (c.feasibles.getD i 0) k = true ∧
             bitY (c.feasibles.getD j 0) k = false) ∨
            (c.options.getD k PermittedDirection.both = PermittedDirection.back ∧
             bitY (c.feasibles.getD i 0) k = false ∧
             bitY (c.feasibles.getD j 0) k = true)) :
    reachabilityEntry c dmIdx i j = false := by
  have hcut : irrevCut c i j = true := by
    unfold irrevCut
    rw [List.any_eq_true]
    refine ⟨k, List.mem_range.mpr hk, ?_⟩
    show ((c.options.getD k PermittedDirection.both != PermittedDirection.both) &&
      ((bitY (c.feasibles.getD i 0) k &&
          c.options.getD k PermittedDirection.both == PermittedDirection.fwd) ||
       (!(bitY (c.feasibles.getD i 0) k) &&
          c.options.getD k PermittedDirection.both == PermittedDirection.back)) &&
      (bitY (c.feasibles.getD i 0) k != bitY (c.feasibles.getD j 0) k)) = true
    rcases hdir with ⟨h1, h2, h3⟩ | ⟨h1, h2, h3⟩ <;> rw [h1, h2, h3] <;> rfl
  unfold reachabilityEntry
  rw [hcut]
  simp

/-- Witness for C5: the forward-only option of cIrr blocks the move from the
taken state back to the untaken state for its only party. -/
theorem irreversible_moves_zeroed_witness :
    reachabilityEntry cIrr 0 1 0 = false :=
  irreversible_moves_zeroed cIrr 0 1 0 0 (by decide) (by decide) (by decide)
    (Or.inl (by decide))

/-- C6: the payoff comparison entry of a coalition is the boolean (encoded
1 or 0) of all members strictly preferring j to i, false otherwise; for a
plain decision maker it is the payoff difference. -/
theorem payoff_comparison_matrix (p : Party) (i j : Nat) :
    (p.isCoalition = true →
      (payoffMatrix p i j = 1 ↔
        ∀ m ∈ p.memberPayoffs, m.getD i 0 < m.getD j 0) ∧
      (payoffMatrix p i j = 0 ↔
        ¬ ∀ m ∈ p.memberPayoffs, m.getD i 0 < m.getD j 0)) ∧
    (p.isCoalition = false →
      payoffMatrix p i j = p.payoffs.getD j 0 - p.payoffs.getD i 0) := by
  refine ⟨fun hco => ?_, fun hco => payoffMatrix_dm hco i j⟩
  have hall : ((List.range p.memberPayoffs.length).all
      (fun m => decide (0 < (p.memberPayoffs.getD m []).getD j 0
                            - (p.memberPayoffs.getD m []).getD i 0)) = true) ↔
      ∀ m ∈ p.memberPayoffs, m.getD i 0 < m.getD j 0 := by
    simp only [List.all_eq_true, List.mem_range, decide_eq_true_eq, sub_pos]
    constructor
    · intro h m hm
      obtain ⟨idx, hidx, rfl⟩ := List.mem_iff_getElem.mp hm
      have := h idx hidx
      rwa [List.getD_eq_getElem _ _ hidx] at this
    · intro h idx hidx
      rw [List.getD_eq_getElem _ _ hidx]
      exact h _ (List.getElem_mem hidx)
  unfold payoffMatrix
  rw [hco]
  simp only [if_true]
  by_cases hc : (List.range p.memberPayoffs.length).all
      (fun m => decide (0 < (p.memberPayoffs.getD m []).getD j 0
                            - (p.memberPayoffs.getD m []).getD i 0)) = true
  · rw [if_pos hc]
    rw [hall] at hc
    constructor
    · exact ⟨fun _ => hc, fun _ => rfl⟩
    · exact ⟨fun h => absurd h (by decide), fun h => absurd hc h⟩
  · rw [if_neg hc]
    rw [hall] at hc
    constructor
    · exact ⟨fun h => absurd h (by decide), fun h => absurd h hc⟩
    · exact ⟨fun _ => hc, fun _ => rfl⟩

/-- Witness for C6: in cCo the coalition entry at (0, 1) is 1 since both
members strictly gain, and the decision maker entry is the payoff
difference. -/
theorem payoff_comparison_matrix_witness :
    payoffMatrix (getParty cCo 0) 0 1 = 1 ∧
    payoffMatrix (getParty cCo 1) 0 1 =
      (getParty cCo 1).payoffs.getD 1 0 - (getParty cCo 1).payoffs.getD 0 0 :=
  ⟨((payoff_comparison_matrix (getParty cCo 0) 0 1).1 (by decide)).1.mpr
      (by decide),
   (payoff_comparison_matrix (getParty cCo 1) 0 1).2 (by decide)⟩

/-- C8, counterexample: constructing the reachability matrix generator on
the conflict with an empty feasible state list succeeds and returns empty
0 by 0 matrices instead of failing. -/
theorem rmgen_empty_feasibles_cex :
    rmGeneratorInit cEmpty = Except.ok [([], [])] := by
  rfl

/-- C8 as amended: on a conflict whose feasible state list is empty the
generator construction completes without error and every party receives
0 by 0 reachability and payoff matrices (the initializer contains no
emptiness check and raises nothing). -/
theorem rmgen_empty_feasibles (c : Conflict) (h : c.feasibles = []) :
    rmGeneratorInit c = Except.ok ((List.range c.parties.length).map
      (fun _ => (([] : List (List Bool)), ([] : List (List Int))))) := by
  unfold rmGeneratorInit reachMatrix payoffMatrixFull Nfeas
  rw [h]
  simp

/-- Witness for C8: the amended statement evaluated at the concrete empty
conflict. -/
theorem rmgen_empty_feasibles_witness :
    rmGeneratorInit cEmpty = Except.ok ((List.range cEmpty.parties.length).map
      (fun _ => (([] : List (List Bool)), ([] : List (List Int))))) :=
  rmgen_empty_feasibles cEmpty rfl

/-- C9, counterexample: the node objects carry exactly the claimed five
fields, but each reachable entry is written with the field dm, not partyId,
as the concrete conflict cJ shows. -/
theorem saveJSON_dm_field_cex :
    (saveJSONNodes cJ).map objFields =
      [["id", "decimal", "ordered", "state", "reachable"],
       ["id", "decimal", "ordered", "state", "reachable"]] ∧
    (reachEntriesFor cJ 0).map objFields = [["target", "dm", "payoffChange"]] ∧
    ¬ "partyId" ∈ ["target", "dm", "payoffChange"] := by
  refine ⟨rfl, rfl, by decide⟩

/-- C9 as amended: every node has exactly the fields id, decimal, ordered,
state, reachable, and every reachable entry has exactly the fields target,
dm, payoffChange (dm holding the party index string). -/
theorem saveJSON_fields (c : Conflict) :
    (∀ node ∈ saveJSONNodes c,
      objFields node = ["id", "decimal", "ordered", "state", "reachable"]) ∧
    (∀ s, ∀ e ∈ reachEntriesFor c s,
      objFields e = ["target", "dm", "payoffChange"]) := by
  constructor
  · intro node h
    obtain ⟨i, hi, rfl⟩ := List.mem_map.mp h
    rfl
  · intro s e he
    obtain ⟨coInd, hco, he2⟩ := List.mem_flatMap.mp he
    obtain ⟨rch, hrch, rfl⟩ := List.mem_map.mp he2
    rfl

/-- Witness for C9: the amended field list checked on the concrete entry of
cJ. -/
theorem saveJSON_fields_witness :
    objFields (JVal.obj [("target", JVal.num 1), ("dm", JVal.str "dm0"),
      ("payoffChange", JVal.num 1)]) = ["target", "dm", "payoffChange"] :=
  (saveJSON_fields cJ).2 0 _ (by
    rw [show reachEntriesFor cJ 0 = [JVal.obj [("target", JVal.num 1),
      ("dm", JVal.str "dm0"), ("payoffChange", JVal.num 1)]] from rfl]
    exact List.mem_singleton_self _)

theorem sum_map_const {α : Type} (l : List α) (n : Nat) :
    (l.map (fun _ => n)).sum = l.length * n := by
  induction l with
  | nil => simp
  | cons a t ih => simp [ih, Nat.succ_mul, Nat.add_comm]

theorem length_cartProduct {α : Type} :
    ∀ ls : List (List α), (cartProduct ls).length = (ls.map List.length).prod := by
  intro ls
  induction ls with
  | nil => rfl
  | cons xs rest ih =>
      show (xs.flatMap (fun x => (cartProduct rest).map (fun t => x :: t))).length = _
      rw [List.length_flatMap]
      have : (List.map (List.length ∘ fun x =>
          (cartProduct rest).map (fun t => x :: t)) xs) =
          xs.map (fun _ => (cartProduct rest).length) := by
        refine List.map_congr_left (fun x _ => ?_)
        simp
      rw [this, sum_map_const, ih]
      simp [Nat.mul_comm]

theorem mem_cartProduct {α : Type} :
    ∀ {ls : List (List α)} {y : List α},
      y ∈ cartProduct ls ↔ List.Forall₂ (fun a l => a ∈ l) y ls := by
  intro ls
  induction ls with
  | nil =>
      intro y
      show y ∈ [[]] ↔ _
      simp only [List.mem_singleton]
      constructor
      · rintro rfl
        exact List.Forall₂.nil
      · intro h
        cases h
        rfl
  | cons xs rest ih =>
      intro y
      show y ∈ xs.flatMap (fun x => (cartProduct rest).map (fun t => x :: t)) ↔ _
      rw [List.mem_flatMap]
      constructor
      · rintro ⟨x, hx, hy⟩
        obtain ⟨z, hz, rfl⟩ := List.mem_map.mp hy
        exact List.Forall₂.cons hx (ih.mp hz)
      · intro h
        cases h with
        | cons ha hrest =>
            exact ⟨_, ha, List.mem_map.mpr ⟨_, ih.mpr hrest, rfl⟩⟩

theorem nodup_cartProduct {α : Type} :
    ∀ {ls : List (List α)}, (∀ l ∈ ls, l.Nodup) → (cartProduct ls).Nodup := by
  intro ls
  induction ls with
  | nil =>
      intro _
      exact List.nodup_singleton _
  | cons xs rest ih =>
      intro h
      show (xs.flatMap (fun x => (cartProduct rest).map (fun t => x :: t))).Nodup
      rw [List.nodup_flatMap]
      constructor
      · intro x _
        refine List.Nodup.map (fun t t' htt => ?_) ?_
        · exact List.tail_eq_of_cons_eq htt
        · exact ih (fun l hl => h l (List.mem_cons_of_mem xs hl))
      · have hxs : xs.Nodup := h xs (List.mem_cons_self xs rest)
        refine List.Pairwise.imp ?_ hxs
        intro x x' hne z hz hz'
        obtain ⟨t, _, rfl⟩ := List.mem_map.mp hz
        obtain ⟨t', _, ht'⟩ := List.mem_map.mp hz'
        exact hne (List.head_eq_of_cons_eq ht'.symm) |>.elim

theorem decPerm_eq {α : Type} (full : List α) (a b : Nat) :
    decPerm full [a, b] =
      (((full.drop a).take (b - a)).permutations').map
        (fun x => full.take a ++ x ++ full.drop b) := rfl

theorem length_decPerm {α : Type} (full : List α) (a b : Nat)
    (hab : a ≤ b) (hb : b ≤ full.length) :
    (decPerm full [a, b]).length = Nat.factorial (b - a) := by
  rw [decPerm_eq, List.length_map,
    ← (List.permutations_perm_permutations' _).length_eq,
    List.length_permutations]
  congr 1
  rw [List.length_take, List.length_drop]
  omega

theorem nodup_decPerm {α : Type} (full : List α) (a b : Nat)
    (h : ((full.drop a).take (b - a)).Nodup) : (decPerm full [a, b]).Nodup := by
  rw [decPerm_eq]
  refine List.Nodup.map (fun x y hxy => ?_) ?_
  · exact List.append_cancel_left (List.append_cancel_right hxy)
  · exact ((List.permutations_perm_permutations' _).nodup_iff).mp
      (List.nodup_permutations _ h)

theorem mem_decPerm {α : Type} (full : List α) (a b : Nat) (y : List α) :
    y ∈ decPerm full [a, b] ↔
      ∃ x, x.Perm ((full.drop a).take (b - a)) ∧
        y = full.take a ++ x ++ full.drop b := by
  rw [decPerm_eq]
  constructor
  · intro hy
    obtain ⟨x, hx, rfl⟩ := List.mem_map.mp hy
    exact ⟨x, List.mem_permutations'.mp hx, rfl⟩
  · rintro ⟨x, hx, rfl⟩
    exact List.mem_map.mpr ⟨x, List.mem_permutations'.mpr hx, rfl⟩

theorem zip_spans_eq {α : Type} (prefRanks : List (List α))
    (spans : List (Nat × Nat)) :
    (prefRanks.zip (spans.map (fun ab => [ab.1, ab.2]))).map
        (fun t => decPerm t.1 t.2) =
      (prefRanks.zip spans).map (fun t => decPerm t.1 [t.2.1, t.2.2]) := by
  rw [List.zip_map_right, List.map_map]
  rfl

/-- C7: prefPermGen applied to rankings with one vary span [a, b] per party
yields exactly the Cartesian product over parties of the permutations of the
sub-ranking between positions a and b: the number of joint rankings is the
product of the factorials of the span widths, no joint ranking repeats, and
membership holds exactly for the lists that, partywise, permute the spanned
slice and agree with the original ranking outside it. -/
theorem prefPermGen_cartesian {α : Type} (prefRanks : List (List α))
    (spans : List (Nat × Nat)) (vary : List (List Nat))
    (hvary : vary = spans.map (fun ab => [ab.1, ab.2]))
    (hlen : spans.length = prefRanks.length)
    (hab : ∀ k, k < spans.length →
      (spans.getD k (0, 0)).1 ≤ (spans.getD k (0, 0)).2)
    (hb : ∀ k, k < spans.length →
      (spans.getD k (0, 0)).2 ≤ (prefRanks.getD k []).length)
    (hnd : ∀ k, k < spans.length →
      (((prefRanks.getD k []).drop (spans.getD k (0, 0)).1).take
        ((spans.getD k (0, 0)).2 - (spans.getD k (0, 0)).1)).Nodup) :
    (prefPermGen prefRanks vary).length =
        ((List.range spans.length).map (fun k =>
          Nat.factorial ((spans.getD k (0, 0)).2 - (spans.getD k (0, 0)).1))).prod ∧
    (prefPermGen prefRanks vary).Nodup ∧
    ∀ y, y ∈ prefPermGen prefRanks vary ↔
      List.Forall₂ (fun yk t => ∃ x,
          x.Perm ((t.1.drop t.2.1).take (t.2.2 - t.2.1)) ∧
          yk = t.1.take t.2.1 ++ x ++ t.1.drop t.2.2)
        y (prefRanks.zip spans) := by
  subst hvary
  unfold prefPermGen
  rw [zip_spans_eq]
  have hzlen : (prefRanks.zip spans).length = spans.length := by
    rw [List.length_zip]
    omega
  have hzget : ∀ k (hk : k < (prefRanks.zip spans).length),
      (prefRanks.zip spans)[k] =
        ((prefRanks.getD k []), (spans.getD k (0, 0))) := by
    intro k hk
    have hks : k < spans.length := by omega
    have hkp : k < prefRanks.length := by omega
    rw [List.getElem_zip, List.getD_eq_getElem _ _ hkp,
      List.getD_eq_getElem _ _ hks]
  refine ⟨?_, ?_, ?_⟩
  · rw [length_cartProduct, List.map_map]
    have heq : (prefRanks.zip spans).map
        (List.length ∘ fun t => decPerm t.1 [t.2.1, t.2.2]) =
        (List.range spans.length).map (fun k =>
          Nat.factorial ((spans.getD k (0, 0)).2 - (spans.getD k (0, 0)).1)) := by
      refine List.ext_getElem (by simp [hzlen]) ?_
      intro k h1 h2
      have h1z : k < (prefRanks.zip spans).length := by simpa using h1
      rw [List.getElem_map, List.getElem_map, hzget k h1z]
      show (decPerm (prefRanks.getD k []) [(spans.getD k (0, 0)).1,
          (spans.getD k (0, 0)).2]).length = _
      have hks : k < spans.length := by omega
      rw [length_decPerm _ _ _ (hab k hks) (hb k hks), List.getElem_range]
    rw [heq]
  · refine nodup_cartProduct (fun l hl => ?_)
    obtain ⟨t, ht, rfl⟩ := List.mem_map.mp hl
    obtain ⟨k, hk, rfl⟩ := List.mem_iff_getElem.mp ht
    rw [hzget k hk]
    refine nodup_decPerm _ _ _ ?_
    have hks : k < spans.length := by
      have := hzlen ▸ hk
      omega
    exact hnd k hks
  · intro y
    rw [mem_cartProduct, List.forall₂_map_right_iff]
    constructor
    · refine List.Forall₂.imp (fun yk t h => ?_)
      exact (mem_decPerm t.1 t.2.1 t.2.2 yk).mp h
    · refine List.Forall₂.imp (fun yk t h => ?_)
      exact (mem_decPerm t.1 t.2.1 t.2.2 yk).mpr h

/-- Witness for C7: two parties each varying a span of two ranking entries
yield exactly four pairwise distinct joint rankings. -/
theorem prefPermGen_cartesian_witness :
    (prefPermGen [[1, 2], [3, 4]] [[0, 2], [0, 2]]).length = 4 ∧
    (prefPermGen [[1, 2], [3, 4]] [[0, 2], [0, 2]]).Nodup :=
  have h := prefPermGen_cartesian [[1, 2], [3, 4]] [(0, 2), (0, 2)]
    [[0, 2], [0, 2]] (by decide) (by decide)
    (by decide) (by decide) (by decide)
  ⟨h.1.trans (by decide), h.2.1⟩

/-- C10: RMGenerator.UIs with an explicit reference state returns exactly
the indices reachable from s whose payoff comparison entry at the reference
row is strictly positive, and omitting the reference state is the same as
passing s itself. -/
theorem UIs_characterization (c : Conflict) (dmIdx s r j : Nat)
    (hs : s < Nfeas c) (hr : r < Nfeas c) :
    (j ∈ UIsList c dmIdx s (some r) ↔
      j < Nfeas c ∧ reachabilityEntry c dmIdx s j = true ∧
        0 < payoffMatrix (getParty c dmIdx) r j) ∧
    UIsList c dmIdx s none = UIsList c dmIdx s (some s) := by
  constructor
  · simp [UIsList, List.mem_filter, List.mem_range, and_assoc]
  · rfl

/-- Witness for C10: in cJ state 1 is a UI of the only party from state 0
with reference state 0, and the default reference equals the explicit one. -/
theorem UIs_characterization_witness :
    (1 ∈ UIsList cJ 0 0 (some 0)) ∧
    UIsList cJ 0 0 none = UIsList cJ 0 0 (some 0) :=
  ⟨(UIs_characterization cJ 0 0 0 1 (by decide) (by decide)).1.mpr
      ⟨by decide, by decide, by decide⟩,
   (UIs_characterization cJ 0 0 0 1 (by decide) (by decide)).2⟩

end GMCR
